import Mathlib

/-!
# Verification of the command-catalog extraction engine (`commands_loader.py`)

This file gives a shallow embedding, over `List Char`, of the repository's
`src/commands_loader.py`:

* `_JS_ARRAY_START` (`var\s+cvars\s*=\s*\[`, case-insensitive `re.search`) is
  embedded as `searchArrayStart`;
* `_DEF_END_REGEX` (`\];`, searched from the end of the start match) is
  embedded as `splitAtDefEnd`, which returns the array block before the first
  occurrence;
* `_JS_ENTRY_REGEX` (the `{name: "...", help: "...", type: "..."}` shape with
  `(?:\\.|[^"])*` string bodies, DOTALL) and `finditer` are embedded as
  `matchEntryAt` and `findEntries`.  `qstr` implements the backtracking
  semantics of the greedy star `(?:\\.|[^"])*` followed by a closing quote:
  at each step the engine prefers consuming `\\.`, then `[^"]`, and only then
  closing the string, exactly as CPython's backtracking engine does;
* `_decode_js_string` (`bytes(text, "utf-8").decode("unicode_escape")` with a
  fallback to the raw text on any failure) is embedded as `_decode_js_string`
  on top of `utf8Bytes` and the byte-level `uesc`;
* `_sanitize_help` (`re.sub(r"\s+", " ", text).strip()`) is embedded as
  `_sanitize_help`;
* path handling (lines 50-51 of the source) is embedded as `resolve_path` over
  an abstract `PyPath`, and the filesystem as an explicit environment `Env`.

Modelling notes (the deviations a reader should know about):
* `\s` and `str.strip` use the Unicode white-space set of Python strings,
  reproduced in `isPySpace`; `re.IGNORECASE` is modelled on ASCII letters
  (the marker only contains ASCII letters).
* `unicode_escape`: `\N{...}` named escapes and `\u`/`\U` escapes denoting
  surrogate code points are treated as decode failures (Lean `Char` cannot
  represent lone surrogates and the Unicode name table is not embedded); in
  both cases `_decode_js_string` then falls back to the raw text, which is the
  same fallback the source takes on its own decode failures.
* `Path.resolve()` is modelled lexically (no symlinks): relative paths are
  anchored at the process working directory, absolute ones are normalized.
* File reading uses `errors="ignore"`, so the text decoding of the file never
  fails; a read is therefore modelled as `Option (List Char)`, `none` being an
  `OSError`.
-/

/-- The white-space set matched by `\s` (and stripped by `str.strip`) for
Python `str` patterns. -/
def isPySpace (c : Char) : Bool :=
  c = ' ' || c = '\t' || c = '\n' || c = '\r' || c = '\x0b' || c = '\x0c' ||
  (0x1c ≤ c.toNat && c.toNat ≤ 0x1f) || c.toNat = 0x85 || c.toNat = 0xa0 ||
  c.toNat = 0x1680 || (0x2000 ≤ c.toNat && c.toNat ≤ 0x200a) ||
  c.toNat = 0x2028 || c.toNat = 0x2029 || c.toNat = 0x202f ||
  c.toNat = 0x205f || c.toNat = 0x3000

/-- `\s*` (maximal munch; in every context where the source regexes use `\s*`
the following token is not white space, so the greedy munch is exact). -/
def wsStar (cs : List Char) : List Char := cs.dropWhile isPySpace

/-- Match a single literal character, returning the rest of the input. -/
def expectChar (a : Char) : List Char → Option (List Char)
  | c :: cs => if c = a then some cs else none
  | [] => none

/-- Match a literal word, returning the rest of the input. -/
def lit : List Char → List Char → Option (List Char)
  | [], cs => some cs
  | p :: ps, c :: cs => if c = p then lit ps cs else none
  | _ :: _, [] => none

/-- ASCII-case-insensitive character match (for `re.IGNORECASE`); the pattern
character `p` is lower case. -/
def eqCI (p c : Char) : Bool := c = p || c.toLower = p

/-- Case-insensitive literal word match. -/
def litCI : List Char → List Char → Option (List Char)
  | [], cs => some cs
  | p :: ps, c :: cs => if eqCI p c then litCI ps cs else none
  | _ :: _, [] => none

/-- `\s+` followed by maximal munch (the token after `\s+` in the start marker
is `c`, which is not white space, so this is exact). -/
def wsPlus (cs : List Char) : Option (List Char) :=
  match cs with
  | c :: rest => if isPySpace c then some (rest.dropWhile isPySpace) else none
  | [] => none

/-- Backtracking matcher for `(?:\\.|[^"])*"` followed by the continuation
`k`, which receives the captured string body and the input after the closing
quote.  The alternative order (consume `\\.`, else consume `[^"]`, else close
on `"`) together with the `Option` fallthrough reproduces CPython's greedy
backtracking order for `_JS_ENTRY_REGEX`'s string bodies (DOTALL: `.` also
matches newlines). -/
def qstr {α : Type} (acc : List Char) (cs : List Char)
    (k : List Char → List Char → Option α) : Option α :=
  match cs with
  | [] => none
  | '"' :: rest => k acc.reverse rest
  | '\\' :: c2 :: rest' =>
    (match qstr (c2 :: '\\' :: acc) rest' k with
     | some r => some r
     | none => qstr ('\\' :: acc) (c2 :: rest') k)
  | ['\\'] => qstr ('\\' :: acc) [] k
  | c :: rest => qstr (c :: acc) rest k

theorem qstr_nil {α : Type} (acc : List Char)
    (k : List Char → List Char → Option α) : qstr acc [] k = none := rfl

theorem qstr_quote {α : Type} (acc rest : List Char)
    (k : List Char → List Char → Option α) :
    qstr acc ('"' :: rest) k = k acc.reverse rest := rfl

theorem qstr_esc {α : Type} (acc : List Char) (c2 : Char) (rest' : List Char)
    (k : List Char → List Char → Option α) :
    qstr acc ('\\' :: c2 :: rest') k =
      (match qstr (c2 :: '\\' :: acc) rest' k with
       | some r => some r
       | none => qstr ('\\' :: acc) (c2 :: rest') k) := rfl

theorem qstr_esc_nil {α : Type} (acc : List Char)
    (k : List Char → List Char → Option α) :
    qstr acc ['\\'] k = none := rfl

theorem qstr_other {α : Type} {c : Char} (hq : c ≠ '"') (hb : c ≠ '\\')
    (acc rest : List Char) (k : List Char → List Char → Option α) :
    qstr acc (c :: rest) k = qstr (c :: acc) rest k := by
  conv_lhs => rw [qstr.eq_def]
  split
  · rename_i heq; cases heq
  · rename_i heq; rw [List.cons.injEq] at heq; exact absurd heq.1 hq
  · rename_i heq; rw [List.cons.injEq] at heq; exact absurd heq.1 hb
  · rename_i heq; rw [List.cons.injEq] at heq; exact absurd heq.1 hb
  · rename_i heq; rw [List.cons.injEq] at heq; rw [heq.1, heq.2]

/-- The three raw captures of one `_JS_ENTRY_REGEX` match (escaped source
text, exactly as captured). -/
structure RawEntry where
  name : List Char
  help : List Char
  type : List Char
deriving DecidableEq, Repr

/-- Continuation of `_JS_ENTRY_REGEX` after the closing quote of the `type`
capture: `\\s*\\}`, then report the match. -/
def entryK3 (nameCap helpCap : List Char) (typeCap : List Char)
    (cs : List Char) : Option (RawEntry × List Char) :=
  match expectChar '}' (wsStar cs) with
  | none => none
  | some cs => some (⟨nameCap, helpCap, typeCap⟩, cs)

/-- Continuation after the closing quote of the `help` capture:
`\\s*,\\s*type\\s*:\\s*"` and then the `type` string body. -/
def entryK2 (nameCap : List Char) (helpCap : List Char) (cs : List Char) :
    Option (RawEntry × List Char) :=
  match expectChar ',' (wsStar cs) with
  | none => none
  | some cs =>
  match lit ['t', 'y', 'p', 'e'] (wsStar cs) with
  | none => none
  | some cs =>
  match expectChar ':' (wsStar cs) with
  | none => none
  | some cs =>
  match expectChar '"' (wsStar cs) with
  | none => none
  | some cs => qstr [] cs (entryK3 nameCap helpCap)

/-- Continuation after the closing quote of the `name` capture:
`\\s*,\\s*help\\s*:\\s*"` and then the `help` string body. -/
def entryK1 (nameCap : List Char) (cs : List Char) :
    Option (RawEntry × List Char) :=
  match expectChar ',' (wsStar cs) with
  | none => none
  | some cs =>
  match lit ['h', 'e', 'l', 'p'] (wsStar cs) with
  | none => none
  | some cs =>
  match expectChar ':' (wsStar cs) with
  | none => none
  | some cs =>
  match expectChar '"' (wsStar cs) with
  | none => none
  | some cs => qstr [] cs (entryK2 nameCap)

/-- Attempt to match `_JS_ENTRY_REGEX` at the head of the input:
`\\{\\s*name\\s*:\\s*"(...)"\\s*,\\s*help\\s*:...` and so on.
Returns the captures and the input after the match. -/
def matchEntryAt (cs : List Char) : Option (RawEntry × List Char) :=
  match expectChar '{' cs with
  | none => none
  | some cs =>
  match lit ['n', 'a', 'm', 'e'] (wsStar cs) with
  | none => none
  | some cs =>
  match expectChar ':' (wsStar cs) with
  | none => none
  | some cs =>
  match expectChar '"' (wsStar cs) with
  | none => none
  | some cs => qstr [] cs entryK1

/-- `_JS_ARRAY_START.search`: find the first position where
`var\s+cvars\s*=\s*\[` matches (case-insensitively) and return the input
after the end of the match (`start_match.end()`). -/
def matchArrayStartAt (cs : List Char) : Option (List Char) :=
  match litCI ['v', 'a', 'r'] cs with
  | none => none
  | some cs =>
  match wsPlus cs with
  | none => none
  | some cs =>
  match litCI ['c', 'v', 'a', 'r', 's'] cs with
  | none => none
  | some cs =>
  match expectChar '=' (wsStar cs) with
  | none => none
  | some cs => expectChar '[' (wsStar cs)

/-- Scan left to right for the first match of the array-start marker. -/
def searchArrayStart : List Char → Option (List Char)
  | [] => none
  | c :: rest =>
    match matchArrayStartAt (c :: rest) with
    | some r => some r
    | none => searchArrayStart rest

/-- `_DEF_END_REGEX.search(content, start_idx)` plus the slice
`content[start_idx:end_match.start()]`: return the prefix of the input before
the first occurrence of `];`, or `none` if there is none. -/
def splitAtDefEnd : List Char → Option (List Char)
  | [] => none
  | c :: rest =>
    if c = ']' ∧ rest.head? = some ';' then some []
    else (splitAtDefEnd rest).map (c :: ·)

/-- UTF-8 encoding of one scalar value (`bytes(text, "utf-8")`). -/
def utf8Char (c : Char) : List Nat :=
  let n := c.toNat
  if n < 0x80 then [n]
  else if n < 0x800 then [0xC0 + n / 64, 0x80 + n % 64]
  else if n < 0x10000 then
    [0xE0 + n / 4096, 0x80 + (n / 64) % 64, 0x80 + n % 64]
  else
    [0xF0 + n / 0x40000, 0x80 + (n / 4096) % 64, 0x80 + (n / 64) % 64,
     0x80 + n % 64]

/-- UTF-8 encoding of a string. -/
def utf8Bytes : List Char → List Nat
  | [] => []
  | c :: cs => utf8Char c ++ utf8Bytes cs

/-- Hexadecimal digit value. -/
def hexVal (b : Nat) : Option Nat :=
  if 48 ≤ b ∧ b ≤ 57 then some (b - 48)
  else if 97 ≤ b ∧ b ≤ 102 then some (b - 87)
  else if 65 ≤ b ∧ b ≤ 70 then some (b - 55)
  else none

/-- Octal digit test (`'0'..'7'`). -/
def isOctB (b : Nat) : Bool := 48 ≤ b && b ≤ 55

/-- A scalar value Lean's `Char` can carry (no lone surrogates). -/
def validScalar (n : Nat) : Bool := n < 0xD800 || (0xE000 ≤ n && n ≤ 0x10FFFF)

/-- Cons a decoded character onto the rest of a decode. -/
def consD (c : Char) (o : Option (List Char)) : Option (List Char) :=
  o.map (c :: ·)

/-- The `unicode_escape` codec over bytes: plain bytes map to the code point
of the same value (Latin-1 view); `\`-escapes are resolved; a malformed
escape (`\x`/`\u`/`\U` with missing or non-hex digits, a trailing `\`) is a
failure; an unrecognized escape such as `\q` is kept verbatim as the two
characters.  `\N{...}` and surrogate-valued `\u`/`\U` are treated as failures
(see the module docstring). -/
def uescGo : Nat → List Nat → Option (List Char)
  | _, [] => some []
  | 0, _ :: _ => none
  | fuel + 1, 92 :: rest =>
    match rest with
    | [] => none
    | b :: r =>
      if b = 10 then uescGo fuel r
      else if b = 92 then consD '\\' (uescGo fuel r)
      else if b = 39 then consD '\'' (uescGo fuel r)
      else if b = 34 then consD '"' (uescGo fuel r)
      else if b = 98 then consD '\x08' (uescGo fuel r)
      else if b = 102 then consD '\x0c' (uescGo fuel r)
      else if b = 116 then consD '\t' (uescGo fuel r)
      else if b = 110 then consD '\n' (uescGo fuel r)
      else if b = 114 then consD '\r' (uescGo fuel r)
      else if b = 118 then consD '\x0b' (uescGo fuel r)
      else if b = 97 then consD '\x07' (uescGo fuel r)
      else if isOctB b then
        match r with
        | b2 :: r2 =>
          if isOctB b2 then
            match r2 with
            | b3 :: r3 =>
              if isOctB b3 then
                consD (Char.ofNat ((b - 48) * 64 + (b2 - 48) * 8 + (b3 - 48)))
                  (uescGo fuel r3)
              else consD (Char.ofNat ((b - 48) * 8 + (b2 - 48))) (uescGo fuel r2)
            | [] => consD (Char.ofNat ((b - 48) * 8 + (b2 - 48))) (uescGo fuel r2)
          else consD (Char.ofNat (b - 48)) (uescGo fuel r)
        | [] => consD (Char.ofNat (b - 48)) (uescGo fuel r)
      else if b = 120 then
        match r with
        | h1 :: h2 :: r2 =>
          match hexVal h1, hexVal h2 with
          | some v1, some v2 => consD (Char.ofNat (v1 * 16 + v2)) (uescGo fuel r2)
          | _, _ => none
        | _ => none
      else if b = 117 then
        match r with
        | h1 :: h2 :: h3 :: h4 :: r2 =>
          match hexVal h1, hexVal h2, hexVal h3, hexVal h4 with
          | some v1, some v2, some v3, some v4 =>
            let n := ((v1 * 16 + v2) * 16 + v3) * 16 + v4
            if validScalar n then consD (Char.ofNat n) (uescGo fuel r2) else none
          | _, _, _, _ => none
        | _ => none
      else if b = 85 then
        match r with
        | h1 :: h2 :: h3 :: h4 :: h5 :: h6 :: h7 :: h8 :: r2 =>
          match hexVal h1, hexVal h2, hexVal h3, hexVal h4,
                hexVal h5, hexVal h6, hexVal h7, hexVal h8 with
          | some v1, some v2, some v3, some v4,
            some v5, some v6, some v7, some v8 =>
            let n := ((((((v1 * 16 + v2) * 16 + v3) * 16 + v4) * 16 + v5) *
              16 + v6) * 16 + v7) * 16 + v8
            if validScalar n then consD (Char.ofNat n) (uescGo fuel r2) else none
          | _, _, _, _, _, _, _, _ => none
        | _ => none
      else if b = 78 then none
      else consD '\\' (consD (Char.ofNat b) (uescGo fuel r))
  | fuel + 1, b :: rest => consD (Char.ofNat b) (uescGo fuel rest)

/-- The `unicode_escape` decode of a byte string.  `uescGo` consumes at least
one byte per unit of fuel, so with `bs.length` fuel the fuel-exhausted branch
is unreachable and `uescGo` computes the codec itself. -/
def uesc (bs : List Nat) : Option (List Char) := uescGo bs.length bs

/-- `bytes(text, "utf-8").decode("unicode_escape")` with the exception made
explicit: `none` is a raised `UnicodeDecodeError`. -/
def decodeEx (s : List Char) : Option (List Char) := uesc (utf8Bytes s)

/-- `_decode_js_string`: decode, falling back to the raw captured text on any
failure (the source's `try`/`except`). -/
def _decode_js_string (s : List Char) : List Char :=
  match decodeEx s with
  | some r => r
  | none => s

/-- `re.sub(r"\s+", " ", text)`: replace every maximal white-space run with a
single space.  `emitted` records whether the previous character was part of a
white-space run (so that only the first character of a run emits the space). -/
def collapseWs (inRun : Bool) : List Char → List Char
  | [] => []
  | c :: rest =>
    if isPySpace c then
      if inRun then collapseWs true rest else ' ' :: collapseWs true rest
    else c :: collapseWs false rest

/-- `str.strip()`: drop leading and trailing white space. -/
def pyStrip (s : List Char) : List Char :=
  ((s.dropWhile isPySpace).reverse.dropWhile isPySpace).reverse

/-- `_sanitize_help`. -/
def _sanitize_help (s : List Char) : List Char := pyStrip (collapseWs false s)

/-- A POSIX-style `pathlib.Path`: an absolute flag plus the name parts. -/
structure PyPath where
  absolute : Bool
  parts : List String
deriving DecidableEq, Repr

/-- `PurePath.__truediv__`: joining with an absolute path replaces the whole
path. -/
def pathJoin (a b : PyPath) : PyPath :=
  if b.absolute then b else ⟨a.absolute, a.parts ++ b.parts⟩

/-- Collapse `..` and `.` parts (the lexical content of `Path.resolve` in a
symlink-free filesystem); `acc` is the reversed stack of resolved parts. -/
def resolveParts (acc : List String) : List String → List String
  | [] => acc.reverse
  | p :: rest =>
    if p = ".." then resolveParts acc.tail rest
    else if p = "." then resolveParts acc rest
    else resolveParts (p :: acc) rest

/-- `Path.resolve()` (lexical, symlink-free model): anchor relative paths at
the process working directory, then collapse `..`/`.`. -/
def pyResolve (cwd p : PyPath) : PyPath :=
  let q := if p.absolute then p else pathJoin cwd p
  ⟨true, resolveParts [] q.parts⟩

/-- `DEFAULT_HTML_RELATIVE = Path("..") / ".." / ".." / "Saved" /
"ConsoleHelp.html"`. -/
def DEFAULT_HTML_RELATIVE : PyPath :=
  ⟨false, ["..", "..", "..", "Saved", "ConsoleHelp.html"]⟩

/-- Lines 50-51 of the source: `path = html_path or DEFAULT_HTML_RELATIVE`
(`Path` objects are always truthy, so `or` only replaces `None`), then
`path if path.is_absolute() else (Path(__file__).parent / path).resolve()`.
`moduleDir` is `Path(__file__).parent`. -/
def resolve_path (moduleDir cwd : PyPath) (html_path : Option PyPath) :
    PyPath :=
  let path := html_path.getD DEFAULT_HTML_RELATIVE
  if path.absolute then path else pyResolve cwd (pathJoin moduleDir path)

/-- The program's environment: the filesystem (`exists` queries and text
reads; `none` is a read that raises `OSError`), the directory of the module
(`Path(__file__).parent`, absolute in any supported CPython) and the process
working directory. -/
structure Env where
  fs_exists : PyPath → Bool
  fs_read : PyPath → Option (List Char)
  moduleDir : PyPath
  cwd : PyPath

/-- The `UnrealCommand` dataclass. -/
structure UnrealCommand where
  name : List Char
  help : List Char
  type : List Char
deriving DecidableEq, Repr

/-- The body of the `for m in _JS_ENTRY_REGEX.finditer(...)` loop: decode the
three captures and sanitize the decoded help. -/
def mkRecord (e : RawEntry) : UnrealCommand :=
  ⟨_decode_js_string e.name, _sanitize_help (_decode_js_string e.help),
   _decode_js_string e.type⟩

theorem expectChar_some {a : Char} {cs r : List Char}
    (h : expectChar a cs = some r) : cs = a :: r := by
  match cs with
  | [] => simp [expectChar] at h
  | c :: cs' =>
    by_cases hc : c = a
    · subst hc
      simp only [expectChar, if_pos, Option.some.injEq] at h
      rw [h]
    · simp [expectChar, hc] at h

theorem lit_some : ∀ {p cs r : List Char}, lit p cs = some r → cs = p ++ r
  | [], cs, r, h => by simpa [lit] using h
  | a :: p', c :: cs', r, h => by
    by_cases hc : c = a
    · subst hc
      simp only [lit, if_pos] at h
      simpa using lit_some h
    · simp [lit, hc] at h
  | _ :: _, [], r, h => by simp [lit] at h

theorem wsStar_length_le (cs : List Char) : (wsStar cs).length ≤ cs.length := by
  have h := List.takeWhile_append_dropWhile isPySpace cs
  calc (wsStar cs).length
      ≤ (cs.takeWhile isPySpace).length + (cs.dropWhile isPySpace).length :=
        Nat.le_add_left _ _
    _ = cs.length := by rw [← List.length_append, h]

theorem expectChar_length {a : Char} {cs r : List Char}
    (h : expectChar a cs = some r) : r.length < cs.length := by
  rw [expectChar_some h]; simp

theorem lit_length {p cs r : List Char} (h : lit p cs = some r) :
    r.length ≤ cs.length := by
  rw [lit_some h]; simp

/-- If the continuation only ever reports a rest no longer than its own
input, then so does `qstr` (the string body and its closing quote are
consumed from `cs`). -/
theorem qstr_some_rest {α : Type} (g : α → List Char) :
    ∀ (n : Nat) (cs acc : List Char) (k : List Char → List Char → Option α)
      (m : α), cs.length ≤ n →
      (∀ cap r, k cap r = some m → (g m).length ≤ r.length) →
      qstr acc cs k = some m → (g m).length ≤ cs.length := by
  intro n
  induction n with
  | zero =>
    intro cs acc k m hn hk h
    match cs with
    | [] => rw [qstr_nil] at h; cases h
    | c :: rest => simp at hn
  | succ n ih =>
    intro cs acc k m hn hk h
    match cs with
    | [] => rw [qstr_nil] at h; cases h
    | c :: rest =>
      simp only [List.length_cons, Nat.succ_le_succ_iff] at hn
      by_cases hq : c = '"'
      · subst hq
        rw [qstr_quote] at h
        have := hk _ _ h
        simp only [List.length_cons]
        omega
      · by_cases hb : c = '\\'
        · subst hb
          match rest with
          | [] =>
            rw [qstr_esc_nil] at h; cases h
          | c2 :: rest' =>
            rw [qstr_esc] at h
            cases hq2 : qstr (c2 :: '\\' :: acc) rest' k with
            | some r =>
              rw [hq2] at h
              simp only [Option.some.injEq] at h
              rw [h] at hq2
              have h2 := ih rest' _ k m (by simp at hn; omega) hk hq2
              simp only [List.length_cons] at h2 ⊢
              omega
            | none =>
              rw [hq2] at h
              have h2 := ih (c2 :: rest') _ k m (by simpa using hn) hk h
              simp only [List.length_cons] at h2 ⊢
              omega
        · rw [qstr_other hq hb] at h
          have h2 := ih rest _ k m hn hk h
          simp only [List.length_cons]
          omega

theorem entryK3_rest {nc hc tc : List Char} {cs : List Char} {e : RawEntry}
    {rest : List Char} (h : entryK3 nc hc tc cs = some (e, rest)) :
    rest.length ≤ cs.length := by
  unfold entryK3 at h
  split at h
  · exact Option.noConfusion h
  · rename_i cs1 h1
    simp only [Option.some.injEq, Prod.mk.injEq] at h
    obtain ⟨-, hr⟩ := h
    subst hr
    have h2 := expectChar_length h1
    have h3 := wsStar_length_le cs
    omega

theorem entryK2_rest {nc hc : List Char} {cs : List Char} {e : RawEntry}
    {rest : List Char} (h : entryK2 nc hc cs = some (e, rest)) :
    rest.length ≤ cs.length := by
  unfold entryK2 at h
  split at h
  · exact Option.noConfusion h
  rename_i cs1 h1
  split at h
  · exact Option.noConfusion h
  rename_i cs2 h2
  split at h
  · exact Option.noConfusion h
  rename_i cs3 h3
  split at h
  · exact Option.noConfusion h
  rename_i cs4 h4
  have h5 := qstr_some_rest (fun m => m.2) cs4.length cs4 []
    (entryK3 nc hc) (e, rest) (Nat.le_refl _)
    (fun cap r hr => entryK3_rest hr) h
  simp only at h5
  have := expectChar_length h1
  have := expectChar_length h3
  have := expectChar_length h4
  have := lit_length h2
  have := wsStar_length_le cs
  have := wsStar_length_le cs1
  have := wsStar_length_le cs2
  have := wsStar_length_le cs3
  omega

theorem entryK1_rest {nc : List Char} {cs : List Char} {e : RawEntry}
    {rest : List Char} (h : entryK1 nc cs = some (e, rest)) :
    rest.length ≤ cs.length := by
  unfold entryK1 at h
  split at h
  · exact Option.noConfusion h
  rename_i cs1 h1
  split at h
  · exact Option.noConfusion h
  rename_i cs2 h2
  split at h
  · exact Option.noConfusion h
  rename_i cs3 h3
  split at h
  · exact Option.noConfusion h
  rename_i cs4 h4
  have h5 := qstr_some_rest (fun m => m.2) cs4.length cs4 []
    (entryK2 nc) (e, rest) (Nat.le_refl _)
    (fun cap r hr => entryK2_rest hr) h
  simp only at h5
  have := expectChar_length h1
  have := expectChar_length h3
  have := expectChar_length h4
  have := lit_length h2
  have := wsStar_length_le cs
  have := wsStar_length_le cs1
  have := wsStar_length_le cs2
  have := wsStar_length_le cs3
  omega

/-- A successful `_JS_ENTRY_REGEX` match consumes at least one character. -/
theorem matchEntryAt_rest_lt {cs : List Char} {e : RawEntry}
    {rest : List Char} (h : matchEntryAt cs = some (e, rest)) :
    rest.length < cs.length := by
  unfold matchEntryAt at h
  split at h
  · exact Option.noConfusion h
  rename_i cs1 h1
  split at h
  · exact Option.noConfusion h
  rename_i cs2 h2
  split at h
  · exact Option.noConfusion h
  rename_i cs3 h3
  split at h
  · exact Option.noConfusion h
  rename_i cs4 h4
  have h5 := qstr_some_rest (fun m => m.2) cs4.length cs4 []
    entryK1 (e, rest) (Nat.le_refl _)
    (fun cap r hr => entryK1_rest hr) h
  simp only at h5
  have := expectChar_length h1
  have := expectChar_length h3
  have := expectChar_length h4
  have := lit_length h2
  have := wsStar_length_le cs1
  have := wsStar_length_le cs2
  have := wsStar_length_le cs3
  omega

/-- `finditer`: scan left to right; on a match, emit it and continue after
its end, otherwise advance one position.  (All matches consume at least one
character, so the zero-width-advance rule of `finditer` never fires.) -/
def findEntries (cs : List Char) : List RawEntry :=
  match h : matchEntryAt cs with
  | some (e, rest) => e :: findEntries rest
  | none =>
    match cs with
    | [] => []
    | _ :: rest => findEntries rest
termination_by cs.length
decreasing_by
  · exact matchEntryAt_rest_lt h
  · simp

/-- `load_commands` (lines 49-76 of the source): resolve the path, return `[]`
if it does not exist, read it (`[]` on a read failure), locate the array
block between the start marker and the first `];` after it (`[]` if either
marker is missing), and build one record per `_JS_ENTRY_REGEX` match. -/
def load_commands (env : Env) (html_path : Option PyPath) :
    List UnrealCommand :=
  let path := resolve_path env.moduleDir env.cwd html_path
  if env.fs_exists path then
    match env.fs_read path with
    | none => []
    | some content =>
      match searchArrayStart content with
      | none => []
      | some afterStart =>
        match splitAtDefEnd afterStart with
        | none => []
        | some block => (findEntries block).map mkRecord
  else []

/-- `load_command_names` (lines 79-80): the `name` projection of
`load_commands`. -/
def load_command_names (env : Env) (html_path : Option PyPath) :
    List (List Char) :=
  (load_commands env html_path).map (fun c => c.name)

/-- The pipeline of `load_commands` up to (and excluding) the per-match
decode/sanitize step: the raw captures, in match order. -/
def load_raw_entries (env : Env) (html_path : Option PyPath) :
    List RawEntry :=
  let path := resolve_path env.moduleDir env.cwd html_path
  if env.fs_exists path then
    match env.fs_read path with
    | none => []
    | some content =>
      match searchArrayStart content with
      | none => []
      | some afterStart =>
        match splitAtDefEnd afterStart with
        | none => []
        | some block => findEntries block
  else []

/-- The exceptions the source code can see: an `OSError` from
`Path.read_text` and a `UnicodeDecodeError` from `bytes.decode`. -/
inductive PyErr where
  | osError
  | unicodeDecodeError
deriving DecidableEq, Repr

/-- `path.read_text(encoding="utf-8", errors="ignore")` with its exception
channel explicit (`errors="ignore"` means text decoding never fails, so the
only failure is an `OSError` from the read itself). -/
def read_text_ex (env : Env) (path : PyPath) : Except PyErr (List Char) :=
  match env.fs_read path with
  | some content => Except.ok content
  | none => Except.error PyErr.osError

/-- `_decode_js_string` with its exception channel explicit: the source's
`try` body raises iff the codec fails. -/
def decode_js_string_ex (s : List Char) : Except PyErr (List Char) :=
  match decodeEx s with
  | some r => Except.ok r
  | none => Except.error PyErr.unicodeDecodeError

/-- `load_commands` with the exception channel explicit: every operation
that can raise appears on an `Except` channel, and each `try`/`except` of
the source is a `match` on that channel (`except Exception: return []` for
the read; the decode's fallback lives inside `_decode_js_string`).  The
remaining operations (regex scanning, list building) are total. -/
def load_commands_ex (env : Env) (html_path : Option PyPath) :
    Except PyErr (List UnrealCommand) :=
  let path := resolve_path env.moduleDir env.cwd html_path
  if env.fs_exists path then
    match read_text_ex env path with
    | Except.error _ => Except.ok []
    | Except.ok content =>
      match searchArrayStart content with
      | none => Except.ok []
      | some afterStart =>
        match splitAtDefEnd afterStart with
        | none => Except.ok []
        | some block => Except.ok ((findEntries block).map mkRecord)
  else Except.ok []

/-! ## Well-formed catalog files

`fieldOk` delimits the family of raw field texts used to build well-formed
input files for the functional-correctness theorems: a sequence of
backslash-escape pairs and plain characters, with no stray `"` (which would
end the string body early), no trailing lone backslash, and no `]` (so the
rendered file's first `];` is its terminator). -/
def fieldOk : List Char → Bool
  | [] => true
  | c :: r =>
    if c = '\\' then
      match r with
      | c2 :: r' => (c2 ≠ ']') && fieldOk r'
      | [] => false
    else (c ≠ '"' && c ≠ ']') && fieldOk r

theorem fieldOk_esc (c2 : Char) (r : List Char) :
    fieldOk ('\\' :: c2 :: r) = ((c2 ≠ ']') && fieldOk r) := rfl

theorem fieldOk_cons_ne {c : Char} (hb : c ≠ '\\') (r : List Char) :
    fieldOk (c :: r) = ((c ≠ '"' && c ≠ ']') && fieldOk r) := by
  rw [fieldOk.eq_def]
  simp only [if_neg hb]

/-- All three raw fields of an entry are well formed. -/
def entryOk (e : RawEntry) : Bool :=
  fieldOk e.name && fieldOk e.help && fieldOk e.type

/-- One rendered record literal, in the exact shape the help dump uses. -/
def renderEntry (e : RawEntry) : List Char :=
  '{' :: 'n' :: 'a' :: 'm' :: 'e' :: ':' :: ' ' :: '"' ::
    (e.name ++ '"' :: ',' :: ' ' :: 'h' :: 'e' :: 'l' :: 'p' :: ':' :: ' ' :: '"' ::
      (e.help ++ '"' :: ',' :: ' ' :: 't' :: 'y' :: 'p' :: 'e' :: ':' :: ' ' :: '"' ::
        (e.type ++ '"' :: '}' :: [])))

/-- Separator written after every rendered record literal. -/
def entrySep : List Char := [',', '\n']

/-- The rendered array body: each record literal followed by `,\n`. -/
def renderEntries : List RawEntry → List Char
  | [] => []
  | e :: rs => renderEntry e ++ (entrySep ++ renderEntries rs)

/-- The canonical start marker `var cvars = [`. -/
def markerChars : List Char :=
  ['v', 'a', 'r', ' ', 'c', 'v', 'a', 'r', 's', ' ', '=', ' ', '[']

/-- A well-formed help-dump file: the start marker, the rendered records,
the terminator `];`, and arbitrary trailing content. -/
def catalogText (rs : List RawEntry) (post : List Char) : List Char :=
  markerChars ++ (renderEntries rs ++ (']' :: ';' :: post))

/-- On a well-formed field the backtracking string matcher consumes exactly
the field and its closing quote and then behaves as its continuation. -/
theorem qstr_append {α : Type} :
    ∀ (n : Nat) (f : List Char), f.length ≤ n → fieldOk f = true →
      ∀ (acc rest : List Char) (k : List Char → List Char → Option α) (m : α),
        k (acc.reverse ++ f) rest = some m →
        qstr acc (f ++ '"' :: rest) k = some m := by
  intro n
  induction n with
  | zero =>
    intro f hle hf acc rest k m hk
    match f with
    | [] =>
      rw [List.nil_append, qstr_quote]
      rw [List.append_nil] at hk
      exact hk
    | _ :: _ => simp at hle
  | succ n ih =>
    intro f hle hf acc rest k m hk
    match f with
    | [] =>
      rw [List.nil_append, qstr_quote]
      rw [List.append_nil] at hk
      exact hk
    | c :: f' =>
      by_cases hb : c = '\\'
      · subst hb
        match f' with
        | [] => exact absurd hf (by decide)
        | c2 :: f'' =>
          rw [fieldOk_esc] at hf
          simp only [Bool.and_eq_true, decide_eq_true_eq] at hf
          have hk' : k ((c2 :: '\\' :: acc).reverse ++ f'') rest = some m := by
            simpa [List.append_assoc] using hk
          have hin := ih f'' (by simp at hle; omega) hf.2 (c2 :: '\\' :: acc)
            rest k m hk'
          rw [List.cons_append, List.cons_append, qstr_esc, hin]
      · rw [fieldOk_cons_ne hb] at hf
        simp only [Bool.and_eq_true, decide_eq_true_eq] at hf
        obtain ⟨⟨hq, hrb⟩, hf'⟩ := hf
        have hk' : k ((c :: acc).reverse ++ f') rest = some m := by
          simpa [List.append_assoc] using hk
        have hin := ih f' (by simp at hle; omega) hf' (c :: acc) rest k m hk'
        rw [List.cons_append, qstr_other hq hb, hin]

theorem entryK3_render (n h t rest : List Char) :
    entryK3 n h t ('}' :: rest) = some (⟨n, h, t⟩, rest) := by
  simp [entryK3, wsStar, List.dropWhile_cons, isPySpace, expectChar]

theorem entryK2_render (n h t rest : List Char) (ht : fieldOk t = true) :
    entryK2 n h (',' :: ' ' :: 't' :: 'y' :: 'p' :: 'e' :: ':' :: ' ' :: '"' ::
      (t ++ '"' :: '}' :: rest)) = some (⟨n, h, t⟩, rest) := by
  have hq := qstr_append t.length t (Nat.le_refl _) ht [] ('}' :: rest)
    (entryK3 n h) (⟨n, h, t⟩, rest) (by simpa using entryK3_render n h t rest)
  simp [entryK2, wsStar, List.dropWhile_cons, isPySpace, expectChar, lit, hq]

theorem entryK1_render (n h t rest : List Char) (hh : fieldOk h = true)
    (ht : fieldOk t = true) :
    entryK1 n (',' :: ' ' :: 'h' :: 'e' :: 'l' :: 'p' :: ':' :: ' ' :: '"' ::
      (h ++ '"' :: ',' :: ' ' :: 't' :: 'y' :: 'p' :: 'e' :: ':' :: ' ' :: '"' ::
        (t ++ '"' :: '}' :: rest))) = some (⟨n, h, t⟩, rest) := by
  have hq := qstr_append h.length h (Nat.le_refl _) hh []
    (',' :: ' ' :: 't' :: 'y' :: 'p' :: 'e' :: ':' :: ' ' :: '"' ::
      (t ++ '"' :: '}' :: rest))
    (entryK2 n) (⟨n, h, t⟩, rest) (by simpa using entryK2_render n h t rest ht)
  simp [entryK1, wsStar, List.dropWhile_cons, isPySpace, expectChar, lit, hq]

/-- A rendered record literal matches, captures its three raw fields, and
leaves exactly the trailing input. -/
theorem matchEntryAt_render (e : RawEntry) (rest : List Char)
    (hok : entryOk e = true) :
    matchEntryAt (renderEntry e ++ rest) = some (e, rest) := by
  obtain ⟨n, h, t⟩ := e
  simp only [entryOk, Bool.and_eq_true] at hok
  obtain ⟨⟨hn, hh⟩, ht⟩ := hok
  have hq := qstr_append n.length n (Nat.le_refl _) hn []
    (',' :: ' ' :: 'h' :: 'e' :: 'l' :: 'p' :: ':' :: ' ' :: '"' ::
      (h ++ '"' :: ',' :: ' ' :: 't' :: 'y' :: 'p' :: 'e' :: ':' :: ' ' :: '"' ::
        (t ++ '"' :: '}' :: rest)))
    entryK1 (⟨n, h, t⟩, rest) (by simpa using entryK1_render n h t rest hh ht)
  simp [matchEntryAt, renderEntry, wsStar, List.dropWhile_cons, isPySpace,
    expectChar, lit, List.cons_append, List.append_assoc, hq]

theorem findEntries_nil : findEntries [] = [] := by
  rw [findEntries]
  split
  · rename_i e rest heq
    exact Option.noConfusion heq
  · rfl

theorem findEntries_match {cs : List Char} {e : RawEntry} {rest : List Char}
    (h : matchEntryAt cs = some (e, rest)) :
    findEntries cs = e :: findEntries rest := by
  rw [findEntries]
  split
  · rename_i e' rest' heq
    rw [heq] at h
    simp only [Option.some.injEq, Prod.mk.injEq] at h
    rw [h.1, h.2]
  · rename_i heq
    rw [heq] at h
    exact Option.noConfusion h

theorem findEntries_skip {c : Char} {cs : List Char}
    (h : matchEntryAt (c :: cs) = none) :
    findEntries (c :: cs) = findEntries cs := by
  rw [findEntries]
  split
  · rename_i e' rest' heq
    rw [heq] at h
    exact Option.noConfusion h
  · rfl

/-- A position whose head is not `{` cannot start an entry match. -/
theorem matchEntryAt_cons_ne {c : Char} (hc : c ≠ '{') (cs : List Char) :
    matchEntryAt (c :: cs) = none := by
  simp [matchEntryAt, expectChar, hc]

theorem matchEntryAt_nil : matchEntryAt [] = none := rfl

/-- Scanning a region with no `{` yields nothing and continues behind it. -/
theorem findEntries_no_lbrace :
    ∀ (g : List Char), '{' ∉ g →
      ∀ (X : List Char), findEntries (g ++ X) = findEntries X := by
  intro g
  induction g with
  | nil => intro _ X; rw [List.nil_append]
  | cons c g' ih =>
    intro hg X
    simp only [List.mem_cons] at hg
    push_neg at hg
    rw [List.cons_append,
      findEntries_skip (matchEntryAt_cons_ne (fun h => hg.1 h.symm) _),
      ih hg.2 X]

/-- Scanning the rendered records followed by anything: each record matches
in turn, the separators are skipped, and scanning continues behind them. -/
theorem findEntries_renderEntries_append :
    ∀ (rs : List RawEntry), (∀ e ∈ rs, entryOk e = true) →
      ∀ (X : List Char), findEntries (renderEntries rs ++ X) = rs ++ findEntries X := by
  intro rs
  induction rs with
  | nil => intro _ X; rw [show renderEntries [] = [] from rfl, List.nil_append,
      List.nil_append]
  | cons e rs' ih =>
    intro hok X
    rw [show renderEntries (e :: rs') = renderEntry e ++ (entrySep ++ renderEntries rs') from rfl]
    rw [List.append_assoc]
    rw [findEntries_match (matchEntryAt_render e _ (hok e (by simp)))]
    rw [show entrySep ++ renderEntries rs' ++ X = entrySep ++ (renderEntries rs' ++ X) from by
      rw [List.append_assoc]]
    rw [findEntries_no_lbrace entrySep (by decide) _]
    rw [ih (fun e' he' => hok e' (by simp [he'])) X]
    rfl

/-- `fieldOk` fields contain no `]`. -/
theorem fieldOk_not_rbracket :
    ∀ (n : Nat) (f : List Char), f.length ≤ n → fieldOk f = true → ']' ∉ f := by
  intro n
  induction n with
  | zero =>
    intro f hle _
    match f with
    | [] => simp
    | _ :: _ => simp at hle
  | succ n ih =>
    intro f hle hf
    match f with
    | [] => simp
    | c :: f' =>
      by_cases hb : c = '\\'
      · subst hb
        match f' with
        | [] => exact absurd hf (by decide)
        | c2 :: f'' =>
          rw [fieldOk_esc] at hf
          simp only [Bool.and_eq_true, decide_eq_true_eq] at hf
          simp only [List.mem_cons]
          push_neg
          refine ⟨by decide, fun h => hf.1 h.symm, ?_⟩
          intro hmem
          exact (ih f'' (by simp at hle; omega) hf.2) hmem
      · rw [fieldOk_cons_ne hb] at hf
        simp only [Bool.and_eq_true, decide_eq_true_eq] at hf
        simp only [List.mem_cons]
        push_neg
        exact ⟨fun h => hf.1.2 h.symm,
          fun hmem => (ih f' (by simp at hle; omega) hf.2) hmem⟩

/-- A rendered record literal with well-formed fields contains no `]`. -/
theorem rbracket_not_mem_renderEntry {e : RawEntry} (hok : entryOk e = true) :
    ']' ∉ renderEntry e := by
  simp only [entryOk, Bool.and_eq_true] at hok
  intro hmem
  simp [renderEntry] at hmem
  rcases hmem with h | h | h
  · exact fieldOk_not_rbracket _ _ (Nat.le_refl _) hok.1.1 h
  · exact fieldOk_not_rbracket _ _ (Nat.le_refl _) hok.1.2 h
  · exact fieldOk_not_rbracket _ _ (Nat.le_refl _) hok.2 h

/-- The rendered array body contains no `]`, so the rendered `];` is the
first one in the file. -/
theorem rbracket_not_mem_renderEntries :
    ∀ (rs : List RawEntry), (∀ e ∈ rs, entryOk e = true) →
      ']' ∉ renderEntries rs := by
  intro rs
  induction rs with
  | nil => intro _; simp [renderEntries]
  | cons e rs' ih =>
    intro hok hmem
    rw [show renderEntries (e :: rs') =
      renderEntry e ++ (entrySep ++ renderEntries rs') from rfl] at hmem
    simp only [List.mem_append, entrySep, List.mem_cons,
      List.not_mem_nil] at hmem
    rcases hmem with h | h
    · exact rbracket_not_mem_renderEntry (hok e (by simp)) h
    · rcases h with h | h
      · rcases h with h | h | h
        · exact absurd h (by decide)
        · exact absurd h (by decide)
        · exact h
      · exact ih (fun e' he' => hok e' (by simp [he'])) h

/-- The first `];` after a `]`-free region delimits exactly that region. -/
theorem splitAtDefEnd_append :
    ∀ (s : List Char), ']' ∉ s →
      ∀ (t : List Char), splitAtDefEnd (s ++ ']' :: ';' :: t) = some s := by
  intro s
  induction s with
  | nil =>
    intro _ t
    rw [List.nil_append]
    rw [splitAtDefEnd]
    simp
  | cons c s' ih =>
    intro hs t
    simp only [List.mem_cons] at hs
    push_neg at hs
    rw [List.cons_append, splitAtDefEnd]
    rw [if_neg (fun hand => hs.1 hand.1.symm)]
    rw [ih hs.2 t]
    rfl

/-- The canonical marker matches at position zero, leaving the body. -/
theorem searchArrayStart_marker (X : List Char) :
    searchArrayStart (markerChars ++ X) = some X := by
  simp [markerChars, searchArrayStart, matchArrayStartAt, litCI, eqCI, wsPlus,
    wsStar, List.dropWhile_cons, isPySpace, expectChar]

theorem load_commands_block (env : Env) (hp : Option PyPath)
    {content A B : List Char}
    (hex : env.fs_exists (resolve_path env.moduleDir env.cwd hp) = true)
    (hrd : env.fs_read (resolve_path env.moduleDir env.cwd hp) = some content)
    (hsearch : searchArrayStart content = some A)
    (hsplit : splitAtDefEnd A = some B) :
    load_commands env hp = (findEntries B).map mkRecord := by
  simp only [load_commands, hex, if_true, hrd, hsearch, hsplit]

theorem load_commands_nosearch (env : Env) (hp : Option PyPath)
    {content : List Char}
    (hex : env.fs_exists (resolve_path env.moduleDir env.cwd hp) = true)
    (hrd : env.fs_read (resolve_path env.moduleDir env.cwd hp) = some content)
    (hsearch : searchArrayStart content = none) :
    load_commands env hp = [] := by
  simp only [load_commands, hex, if_true, hrd, hsearch]

theorem load_commands_nosplit (env : Env) (hp : Option PyPath)
    {content A : List Char}
    (hex : env.fs_exists (resolve_path env.moduleDir env.cwd hp) = true)
    (hrd : env.fs_read (resolve_path env.moduleDir env.cwd hp) = some content)
    (hsearch : searchArrayStart content = some A)
    (hsplit : splitAtDefEnd A = none) :
    load_commands env hp = [] := by
  simp only [load_commands, hex, if_true, hrd, hsearch, hsplit]

/-- Loading a well-formed catalog file returns exactly the rendered records,
decoded and sanitized, in source order. -/
theorem load_catalogText (rs : List RawEntry) (post : List Char) (env : Env)
    (hp : Option PyPath) (hok : ∀ e ∈ rs, entryOk e = true)
    (hex : env.fs_exists (resolve_path env.moduleDir env.cwd hp) = true)
    (hrd : env.fs_read (resolve_path env.moduleDir env.cwd hp) =
      some (catalogText rs post)) :
    load_commands env hp = rs.map mkRecord := by
  have hsearch : searchArrayStart (catalogText rs post) =
      some (renderEntries rs ++ (']' :: ';' :: post)) :=
    searchArrayStart_marker _
  have hsplit : splitAtDefEnd (renderEntries rs ++ (']' :: ';' :: post)) =
      some (renderEntries rs) :=
    splitAtDefEnd_append _ (rbracket_not_mem_renderEntries rs hok) post
  have hfe : findEntries (renderEntries rs) = rs := by
    have h := findEntries_renderEntries_append rs hok []
    rw [List.append_nil] at h
    rw [h, findEntries_nil, List.append_nil]
  rw [load_commands_block env hp hex hrd hsearch hsplit, hfe]

/-- When the module directory is absolute (as `Path(__file__).parent` is in
any supported CPython), the resolved path does not depend on the process
working directory. -/
theorem resolve_path_cwd_irrel {md : PyPath} (hmd : md.absolute = true)
    (c c' : PyPath) (hp : Option PyPath) :
    resolve_path md c hp = resolve_path md c' hp := by
  unfold resolve_path
  by_cases habs : (hp.getD DEFAULT_HTML_RELATIVE).absolute
  · rw [if_pos habs, if_pos habs]
  · rw [if_neg habs, if_neg habs]
    have hj : (pathJoin md (hp.getD DEFAULT_HTML_RELATIVE)).absolute = true := by
      unfold pathJoin
      rw [if_neg (by simpa using habs)]
      exact hmd
    unfold pyResolve
    rw [if_pos hj, if_pos hj]

/-- Replace the read function of an environment (used to state that an
outcome is independent of any read). -/
def withRead (env : Env) (rd : PyPath → Option (List Char)) : Env :=
  ⟨env.fs_exists, rd, env.moduleDir, env.cwd⟩

/-- Replace the process working directory of an environment. -/
def withCwd (env : Env) (c : PyPath) : Env :=
  ⟨env.fs_exists, env.fs_read, env.moduleDir, c⟩

/-! ## Concrete fixtures used by the witnesses -/

def mdW : PyPath := ⟨true, ["Engine", "Tools", "src"]⟩

def cwdW : PyPath := ⟨true, ["home", "user"]⟩

/-- An environment in which every path exists and reads the given text. -/
def envOf (content : List Char) : Env :=
  ⟨fun _ => true, fun _ => some content, mdW, cwdW⟩

def rsW : List RawEntry :=
  [⟨"r.vsync".data, "Sets\\nVSync".data, "Var".data⟩,
   ⟨"stat fps".data, "Show FPS".data, "Cmd".data⟩]

/-- C1: a well-formed input file whose array block renders `N` record
literals loads to exactly `N` records, in source order, with `name`/`type`
(the record's kind) the decoded captures and `help` the decoded capture
after whitespace normalization. -/
theorem C1_wellformed_load (rs : List RawEntry) (post : List Char)
    (env : Env) (hp : Option PyPath)
    (hok : rs.all entryOk = true)
    (hex : env.fs_exists (resolve_path env.moduleDir env.cwd hp) = true)
    (hrd : env.fs_read (resolve_path env.moduleDir env.cwd hp) =
      some (catalogText rs post)) :
    load_commands env hp = rs.map mkRecord ∧
      (load_commands env hp).length = rs.length := by
  have h := load_catalogText rs post env hp (List.all_eq_true.mp hok) hex hrd
  exact ⟨h, by rw [h, List.length_map]⟩

theorem C1_wellformed_load_witness :
    rsW.all entryOk = true ∧
    (load_commands (envOf (catalogText rsW [])) none = rsW.map mkRecord ∧
      (load_commands (envOf (catalogText rsW [])) none).length = rsW.length) :=
  ⟨by decide,
   C1_wellformed_load rsW [] (envOf (catalogText rsW [])) none (by decide)
     rfl rfl⟩

/-- C2: on every environment and every path argument (including none), the
exception-explicit loader returns `Except.ok` of the total loader's result:
no exception propagates to the caller. -/
theorem C2_no_exception : ∀ (env : Env) (hp : Option PyPath),
    load_commands_ex env hp = Except.ok (load_commands env hp) := by
  intro env hp
  simp only [load_commands_ex, load_commands, read_text_ex]
  cases hex : env.fs_exists (resolve_path env.moduleDir env.cwd hp)
  · simp
  · cases hrd : env.fs_read (resolve_path env.moduleDir env.cwd hp)
    · simp
    · rename_i content
      cases hs : searchArrayStart content
      · simp [hs]
      · rename_i A
        cases hsp : splitAtDefEnd A
        · simp [hs, hsp]
        · simp [hs, hsp]

/-- C3: a record one of whose fields fails escape-decoding is still
constructed, with that field falling back to its raw captured text, and the
other records of the file load unaffected.  (`decodeEx e.help = none` is the
raised `UnicodeDecodeError` of the source's `try`.) -/
theorem C3_decode_fallback (rs : List RawEntry) (post : List Char)
    (env : Env) (hp : Option PyPath) (e : RawEntry)
    (hok : rs.all entryOk = true)
    (hex : env.fs_exists (resolve_path env.moduleDir env.cwd hp) = true)
    (hrd : env.fs_read (resolve_path env.moduleDir env.cwd hp) =
      some (catalogText rs post))
    (he : e ∈ rs) (hfail : decodeEx e.help = none) :
    load_commands env hp = rs.map mkRecord ∧
      mkRecord e = ⟨_decode_js_string e.name, _sanitize_help e.help,
        _decode_js_string e.type⟩ := by
  refine ⟨load_catalogText rs post env hp (List.all_eq_true.mp hok) hex hrd, ?_⟩
  simp [mkRecord, _decode_js_string, hfail]

def rsW3 : List RawEntry :=
  [⟨"r.shadow".data, "bad\\x escape".data, "Var".data⟩,
   ⟨"stat unit".data, "Times".data, "Cmd".data⟩]

theorem C3_decode_fallback_witness :
    rsW3.all entryOk = true ∧ decodeEx ("bad\\x escape".data) = none ∧
    (load_commands (envOf (catalogText rsW3 [])) none = rsW3.map mkRecord ∧
      mkRecord ⟨"r.shadow".data, "bad\\x escape".data, "Var".data⟩ =
        ⟨_decode_js_string "r.shadow".data, _sanitize_help "bad\\x escape".data,
          _decode_js_string "Var".data⟩) :=
  ⟨by decide, by decide,
   C3_decode_fallback rsW3 [] (envOf (catalogText rsW3 [])) none
     ⟨"r.shadow".data, "bad\\x escape".data, "Var".data⟩ (by decide) rfl rfl
     (by decide) (by decide)⟩

/-- C4: a readable file with no start marker, or with a start marker but no
terminating `];` after it, loads to the empty sequence. -/
theorem C4_missing_markers (env : Env) (hp : Option PyPath)
    (content : List Char)
    (hex : env.fs_exists (resolve_path env.moduleDir env.cwd hp) = true)
    (hrd : env.fs_read (resolve_path env.moduleDir env.cwd hp) = some content)
    (h : searchArrayStart content = none ∨
      ∃ A, searchArrayStart content = some A ∧ splitAtDefEnd A = none) :
    load_commands env hp = [] := by
  rcases h with h | ⟨A, hA, hsp⟩
  · exact load_commands_nosearch env hp hex hrd h
  · exact load_commands_nosplit env hp hex hrd hA hsp

def contentNoMarker : List Char := "hello world, nothing here".data

def contentNoEnd : List Char :=
  "var cvars = [ \x7bname: \"a\", help: \"b\", type: \"c\"\x7d".data

theorem C4_missing_markers_witness :
    load_commands (envOf contentNoMarker) none = [] ∧
    load_commands (envOf contentNoEnd) none = [] :=
  ⟨C4_missing_markers (envOf contentNoMarker) none contentNoMarker rfl rfl
     (Or.inl (by decide)),
   C4_missing_markers (envOf contentNoEnd) none contentNoEnd rfl rfl
     (Or.inr ⟨" \x7bname: \"a\", help: \"b\", type: \"c\"\x7d".data,
       by decide, by decide⟩)⟩

/-- C5: if the resolved path does not exist, the loader returns the empty
sequence, and its result does not depend on the read function at all (no
file read is performed). -/
theorem C5_nonexistent (env : Env) (hp : Option PyPath)
    (h : env.fs_exists (resolve_path env.moduleDir env.cwd hp) = false) :
    load_commands env hp = [] ∧
      ∀ rd : PyPath → Option (List Char),
        load_commands (withRead env rd) hp = [] := by
  constructor
  · simp [load_commands, h]
  · intro rd
    simp [load_commands, withRead, h]

def envNoFile : Env := ⟨fun _ => false, fun _ => none, mdW, cwdW⟩

theorem C5_nonexistent_witness :
    load_commands envNoFile none = [] ∧
    load_commands (withRead envNoFile (fun _ => some (catalogText rsW [])))
      none = [] :=
  ⟨(C5_nonexistent envNoFile none rfl).1,
   (C5_nonexistent envNoFile none rfl).2 (fun _ => some (catalogText rsW []))⟩

/-- C6: every returned record is the decode of a raw capture triple with
whitespace normalization applied to the `help` field only; `name` and `type`
are used exactly as decoded. -/
theorem C6_normalize_only_help : ∀ (env : Env) (hp : Option PyPath),
    load_commands env hp = (load_raw_entries env hp).map
      (fun e => (⟨_decode_js_string e.name,
        _sanitize_help (_decode_js_string e.help),
        _decode_js_string e.type⟩ : UnrealCommand)) := by
  intro env hp
  simp only [load_commands, load_raw_entries]
  cases hex : env.fs_exists (resolve_path env.moduleDir env.cwd hp)
  · simp
  · cases hrd : env.fs_read (resolve_path env.moduleDir env.cwd hp)
    · simp
    · rename_i content
      cases hs : searchArrayStart content
      · simp [hs]
      · rename_i A
        cases hsp : splitAtDefEnd A
        · simp [hs, hsp]
        · rename_i B
          simp [hs, hsp, mkRecord]

/-- C7: path resolution is a pure total function; no path means the fixed
default relative location; a relative path is resolved against the module's
own directory, and (the module directory being absolute, as `__file__` is)
the outcome never depends on the process working directory. -/
theorem C7_path_resolution :
    (∀ md cwd : PyPath, resolve_path md cwd none =
      resolve_path md cwd (some DEFAULT_HTML_RELATIVE)) ∧
    (∀ md cwd p : PyPath, resolve_path md cwd (some p) =
      if p.absolute then p else pyResolve cwd (pathJoin md p)) ∧
    (∀ (env : Env) (hp : Option PyPath) (c : PyPath),
      env.moduleDir.absolute = true →
      load_commands (withCwd env c) hp = load_commands env hp) := by
  refine ⟨fun md cwd => rfl, fun md cwd p => rfl, ?_⟩
  intro env hp c hmd
  simp only [load_commands, withCwd]
  rw [resolve_path_cwd_irrel hmd c env.cwd hp]

theorem C7_path_resolution_witness :
    resolve_path mdW cwdW none =
      resolve_path mdW cwdW (some DEFAULT_HTML_RELATIVE) ∧
    load_commands (withCwd (envOf (catalogText rsW [])) ⟨true, ["tmp"]⟩)
      none = load_commands (envOf (catalogText rsW [])) none :=
  ⟨C7_path_resolution.1 mdW cwdW,
   C7_path_resolution.2.2 (envOf (catalogText rsW [])) none ⟨true, ["tmp"]⟩
     (by decide)⟩

/-- C8: `load_command_names` is the `name` projection of `load_commands`,
in the same order, on every input. -/
theorem C8_names_projection : ∀ (env : Env) (hp : Option PyPath),
    load_command_names env hp = (load_commands env hp).map (fun c => c.name) :=
  fun _ _ => rfl

/-- C9: decoding the escaped help text `Sets the \"quality\" level.\nDefault: 2`
and normalizing whitespace yields `Sets the "quality" level. Default: 2`. -/
theorem C9_decode_roundtrip :
    _sanitize_help (_decode_js_string
      "Sets the \\\"quality\\\" level.\\nDefault: 2".data) =
    "Sets the \"quality\" level. Default: 2".data := by decide

/-! ## C10: what a successful entry match forces, and what a non-matching
fragment cannot do -/

/-- The language of `(?:\\.|[^"])*`: what a capture of `_JS_ENTRY_REGEX` can
be — a sequence of backslash-pairs and non-quote characters. -/
inductive CapOk : List Char → Prop
  | nil : CapOk []
  | esc (c : Char) (r : List Char) : CapOk r → CapOk ('\\' :: c :: r)
  | chr (c : Char) (r : List Char) : c ≠ '"' → CapOk r → CapOk (c :: r)

/-- A run of white space (what `\s*` consumed). -/
def wsOnly (w : List Char) : Prop := ∀ c ∈ w, isPySpace c = true

theorem wsStar_decomp (cs : List Char) :
    cs = cs.takeWhile isPySpace ++ wsStar cs := by
  rw [wsStar, List.takeWhile_append_dropWhile]

theorem wsOnly_takeWhile (cs : List Char) :
    wsOnly (cs.takeWhile isPySpace) :=
  fun _ hc => List.mem_takeWhile_imp hc

/-- A successful string-body match splits its input into a `CapOk` capture,
the closing quote, and the input handed to the continuation. -/
theorem qstr_some_shape {α : Type} :
    ∀ (n : Nat) (cs acc : List Char) (k : List Char → List Char → Option α)
      (m : α), cs.length ≤ n → qstr acc cs k = some m →
      ∃ cap rest, cs = cap ++ '"' :: rest ∧ CapOk cap ∧
        k (acc.reverse ++ cap) rest = some m := by
  intro n
  induction n with
  | zero =>
    intro cs acc k m hn h
    match cs with
    | [] => rw [qstr_nil] at h; cases h
    | c :: rest => simp at hn
  | succ n ih =>
    intro cs acc k m hn h
    match cs with
    | [] => rw [qstr_nil] at h; cases h
    | c :: rest =>
      simp only [List.length_cons, Nat.succ_le_succ_iff] at hn
      by_cases hq : c = '"'
      · subst hq
        rw [qstr_quote] at h
        exact ⟨[], rest, by simp, CapOk.nil, by simpa using h⟩
      · by_cases hb : c = '\\'
        · subst hb
          match rest with
          | [] => rw [qstr_esc_nil] at h; cases h
          | c2 :: rest' =>
            rw [qstr_esc] at h
            cases hq2 : qstr (c2 :: '\\' :: acc) rest' k with
            | some r =>
              rw [hq2] at h
              simp only [Option.some.injEq] at h
              rw [h] at hq2
              obtain ⟨cap', rest'', heq, hcap, hk⟩ :=
                ih rest' (c2 :: '\\' :: acc) k m (by simp at hn; omega) hq2
              refine ⟨'\\' :: c2 :: cap', rest'', by rw [heq]; simp,
                CapOk.esc c2 cap' hcap, ?_⟩
              simpa [List.append_assoc] using hk
            | none =>
              rw [hq2] at h
              obtain ⟨cap', rest'', heq, hcap, hk⟩ :=
                ih (c2 :: rest') ('\\' :: acc) k m (by simpa using hn) h
              refine ⟨'\\' :: cap', rest'', by rw [heq]; simp,
                CapOk.chr '\\' cap' (by decide) hcap, ?_⟩
              simpa [List.append_assoc] using hk
        · rw [qstr_other hq hb] at h
          obtain ⟨cap', rest'', heq, hcap, hk⟩ :=
            ih rest (c :: acc) k m hn h
          refine ⟨c :: cap', rest'', by rw [heq]; simp,
            CapOk.chr c cap' hq hcap, ?_⟩
          simpa [List.append_assoc] using hk

/-- What `entryK3` (the tail `\s*\}` of the entry pattern) forces. -/
def ShapeK3 (n h t : List Char) (e : RawEntry) (rest cs : List Char) : Prop :=
  e = ⟨n, h, t⟩ ∧ ∃ w, wsOnly w ∧ cs = w ++ ('}' :: rest)

/-- What `entryK2` (`\s*,\s*type\s*:\s*"` and the `type` body) forces. -/
def ShapeK2 (n h : List Char) (e : RawEntry) (rest cs : List Char) : Prop :=
  ∃ w8 w9 w10 w11 tcap rest2,
    wsOnly w8 ∧ wsOnly w9 ∧ wsOnly w10 ∧ wsOnly w11 ∧ CapOk tcap ∧
    cs = w8 ++ (',' :: (w9 ++ ('t' :: 'y' :: 'p' :: 'e' ::
      (w10 ++ (':' :: (w11 ++ ('"' :: (tcap ++ ('"' :: rest2))))))))) ∧
    ShapeK3 n h tcap e rest rest2

/-- What `entryK1` (`\s*,\s*help\s*:\s*"` and the `help` body) forces. -/
def ShapeK1 (n : List Char) (e : RawEntry) (rest cs : List Char) : Prop :=
  ∃ w4 w5 w6 w7 hcap rest2,
    wsOnly w4 ∧ wsOnly w5 ∧ wsOnly w6 ∧ wsOnly w7 ∧ CapOk hcap ∧
    cs = w4 ++ (',' :: (w5 ++ ('h' :: 'e' :: 'l' :: 'p' ::
      (w6 ++ (':' :: (w7 ++ ('"' :: (hcap ++ ('"' :: rest2))))))))) ∧
    ShapeK2 n hcap e rest rest2

/-- The full shape a successful `_JS_ENTRY_REGEX` match forces on its input:
an opening brace, then the three quoted fields labelled `name`, `help`,
`type` in exactly that order, separated only by white space, commas and
colons, each capture in the `(?:\\.|[^"])*` language, then the closing
brace and the unconsumed rest. -/
def EntryShape (e : RawEntry) (rest cs : List Char) : Prop :=
  ∃ w1 w2 w3 ncap rest2,
    wsOnly w1 ∧ wsOnly w2 ∧ wsOnly w3 ∧ CapOk ncap ∧
    cs = '{' :: (w1 ++ ('n' :: 'a' :: 'm' :: 'e' ::
      (w2 ++ (':' :: (w3 ++ ('"' :: (ncap ++ ('"' :: rest2)))))))) ∧
    ShapeK1 ncap e rest rest2

theorem entryK3_shape {n h t cs : List Char} {e : RawEntry}
    {rest : List Char} (hm : entryK3 n h t cs = some (e, rest)) :
    ShapeK3 n h t e rest cs := by
  unfold entryK3 at hm
  split at hm
  · exact Option.noConfusion hm
  · rename_i cs1 h1
    simp only [Option.some.injEq, Prod.mk.injEq] at hm
    obtain ⟨he, hr⟩ := hm
    refine ⟨he.symm, cs.takeWhile isPySpace, wsOnly_takeWhile cs, ?_⟩
    have hd := expectChar_some h1
    rw [hr] at hd
    rw [← hd]
    exact wsStar_decomp cs

theorem entryK2_shape {n h cs : List Char} {e : RawEntry}
    {rest : List Char} (hm : entryK2 n h cs = some (e, rest)) :
    ShapeK2 n h e rest cs := by
  unfold entryK2 at hm
  split at hm
  · exact Option.noConfusion hm
  rename_i cs1 h1
  split at hm
  · exact Option.noConfusion hm
  rename_i cs2 h2
  split at hm
  · exact Option.noConfusion hm
  rename_i cs3 h3
  split at hm
  · exact Option.noConfusion hm
  rename_i cs4 h4
  obtain ⟨tcap, rest2, hcs4, hcap, hk⟩ :=
    qstr_some_shape cs4.length cs4 [] (entryK3 n h) (e, rest)
      (Nat.le_refl _) hm
  simp only [List.reverse_nil, List.nil_append] at hk
  have e1 := wsStar_decomp cs
  rw [expectChar_some h1] at e1
  have e2 := wsStar_decomp cs1
  rw [lit_some h2] at e2
  have e3 := wsStar_decomp cs2
  rw [expectChar_some h3] at e3
  have e4 := wsStar_decomp cs3
  rw [expectChar_some h4] at e4
  rw [e2, e3, e4, hcs4] at e1
  exact ⟨cs.takeWhile isPySpace, cs1.takeWhile isPySpace,
    cs2.takeWhile isPySpace, cs3.takeWhile isPySpace, tcap, rest2,
    wsOnly_takeWhile cs, wsOnly_takeWhile cs1, wsOnly_takeWhile cs2,
    wsOnly_takeWhile cs3, hcap, by simpa using e1, entryK3_shape hk⟩

theorem entryK1_shape {n cs : List Char} {e : RawEntry}
    {rest : List Char} (hm : entryK1 n cs = some (e, rest)) :
    ShapeK1 n e rest cs := by
  unfold entryK1 at hm
  split at hm
  · exact Option.noConfusion hm
  rename_i cs1 h1
  split at hm
  · exact Option.noConfusion hm
  rename_i cs2 h2
  split at hm
  · exact Option.noConfusion hm
  rename_i cs3 h3
  split at hm
  · exact Option.noConfusion hm
  rename_i cs4 h4
  obtain ⟨hcap, rest2, hcs4, hcapok, hk⟩ :=
    qstr_some_shape cs4.length cs4 [] (entryK2 n) (e, rest)
      (Nat.le_refl _) hm
  simp only [List.reverse_nil, List.nil_append] at hk
  have e1 := wsStar_decomp cs
  rw [expectChar_some h1] at e1
  have e2 := wsStar_decomp cs1
  rw [lit_some h2] at e2
  have e3 := wsStar_decomp cs2
  rw [expectChar_some h3] at e3
  have e4 := wsStar_decomp cs3
  rw [expectChar_some h4] at e4
  rw [e2, e3, e4, hcs4] at e1
  exact ⟨cs.takeWhile isPySpace, cs1.takeWhile isPySpace,
    cs2.takeWhile isPySpace, cs3.takeWhile isPySpace, hcap, rest2,
    wsOnly_takeWhile cs, wsOnly_takeWhile cs1, wsOnly_takeWhile cs2,
    wsOnly_takeWhile cs3, hcapok, by simpa using e1, entryK2_shape hk⟩

/-- A successful `_JS_ENTRY_REGEX` match forces the full three-field shape. -/
theorem matchEntryAt_shape {cs : List Char} {e : RawEntry} {rest : List Char}
    (hm : matchEntryAt cs = some (e, rest)) : EntryShape e rest cs := by
  unfold matchEntryAt at hm
  split at hm
  · exact Option.noConfusion hm
  rename_i cs1 h1
  split at hm
  · exact Option.noConfusion hm
  rename_i cs2 h2
  split at hm
  · exact Option.noConfusion hm
  rename_i cs3 h3
  split at hm
  · exact Option.noConfusion hm
  rename_i cs4 h4
  obtain ⟨ncap, rest2, hcs4, hcap, hk⟩ :=
    qstr_some_shape cs4.length cs4 [] entryK1 (e, rest)
      (Nat.le_refl _) hm
  simp only [List.reverse_nil, List.nil_append] at hk
  have e0 := expectChar_some h1
  have e1 := wsStar_decomp cs1
  rw [lit_some h2] at e1
  have e2 := wsStar_decomp cs2
  rw [expectChar_some h3] at e2
  have e3 := wsStar_decomp cs3
  rw [expectChar_some h4] at e3
  rw [e1, e2, e3, hcs4] at e0
  exact ⟨cs1.takeWhile isPySpace, cs2.takeWhile isPySpace,
    cs3.takeWhile isPySpace, ncap, rest2,
    wsOnly_takeWhile cs1, wsOnly_takeWhile cs2, wsOnly_takeWhile cs3,
    hcap, by simpa using e0, entryK1_shape hk⟩

/-- Scanning a region in which no match starts yields nothing from it. -/
theorem findEntries_no_match_region :
    ∀ (g X : List Char),
      (∀ i < g.length, matchEntryAt (List.drop i (g ++ X)) = none) →
      findEntries (g ++ X) = findEntries X := by
  intro g
  induction g with
  | nil => intro X _; rw [List.nil_append]
  | cons c g' ih =>
    intro X hno
    have h0 := hno 0 (by simp)
    rw [List.drop_zero] at h0
    rw [List.cons_append] at h0 ⊢
    rw [findEntries_skip h0]
    refine ih X (fun i hi => ?_)
    have := hno (i + 1) (by simp; omega)
    rwa [List.cons_append, List.drop_succ_cons] at this

/-- C10: (a) a record literal is matched only if it has all three quoted
fields in the exact order `name`, `help`, `type` (any successful match
decomposes the input into that shape); (b) a fragment inside the array block
in which no match starts — in particular one missing a field or with the
fields reordered — contributes no record, raises nothing, and leaves the
records before and after it loading exactly as without it. -/
theorem C10_match_shape_and_skip :
    (∀ (cs : List Char) (e : RawEntry) (rest : List Char),
      matchEntryAt cs = some (e, rest) → EntryShape e rest cs) ∧
    (∀ (rs1 rs2 : List RawEntry) (g post : List Char) (env : Env)
      (hp : Option PyPath),
      rs1.all entryOk = true → rs2.all entryOk = true → ']' ∉ g →
      (∀ i < g.length,
        matchEntryAt (List.drop i (g ++ renderEntries rs2)) = none) →
      env.fs_exists (resolve_path env.moduleDir env.cwd hp) = true →
      env.fs_read (resolve_path env.moduleDir env.cwd hp) =
        some (markerChars ++ (renderEntries rs1 ++ (g ++ (renderEntries rs2 ++
          (']' :: ';' :: post))))) →
      load_commands env hp = (rs1 ++ rs2).map mkRecord) := by
  constructor
  · exact fun cs e rest hm => matchEntryAt_shape hm
  · intro rs1 rs2 g post env hp hok1 hok2 hg hno hex hrd
    have hok1' := List.all_eq_true.mp hok1
    have hok2' := List.all_eq_true.mp hok2
    have hsearch := searchArrayStart_marker (renderEntries rs1 ++
      (g ++ (renderEntries rs2 ++ (']' :: ';' :: post))))
    have hnotin : ']' ∉ renderEntries rs1 ++ (g ++ renderEntries rs2) := by
      simp only [List.mem_append]
      push_neg
      exact ⟨rbracket_not_mem_renderEntries rs1 hok1', hg,
        rbracket_not_mem_renderEntries rs2 hok2'⟩
    have hsplit : splitAtDefEnd (renderEntries rs1 ++
        (g ++ (renderEntries rs2 ++ (']' :: ';' :: post)))) =
        some (renderEntries rs1 ++ (g ++ renderEntries rs2)) := by
      have hassoc : renderEntries rs1 ++
          (g ++ (renderEntries rs2 ++ (']' :: ';' :: post))) =
          (renderEntries rs1 ++ (g ++ renderEntries rs2)) ++
            (']' :: ';' :: post) := by
        simp [List.append_assoc]
      rw [hassoc]
      exact splitAtDefEnd_append _ hnotin post
    have hfe : findEntries (renderEntries rs1 ++ (g ++ renderEntries rs2)) =
        rs1 ++ rs2 := by
      rw [findEntries_renderEntries_append rs1 hok1' _]
      rw [findEntries_no_match_region g _ hno]
      have h2 := findEntries_renderEntries_append rs2 hok2' []
      rw [List.append_nil] at h2
      rw [h2, findEntries_nil, List.append_nil]
    rw [load_commands_block env hp hex hrd hsearch hsplit, hfe]

def gW : List Char := "\x7bname: \"bad\", help: \"oops\"\x7d, ".data

def rs1W : List RawEntry := [⟨"r.vsync".data, "SetsVSync".data, "Var".data⟩]

def rs2W : List RawEntry := [⟨"stat fps".data, "Show FPS".data, "Cmd".data⟩]

def contentW10 : List Char :=
  markerChars ++ (renderEntries rs1W ++ (gW ++ (renderEntries rs2W ++
    (']' :: ';' :: []))))

theorem C10_match_shape_and_skip_witness :
    EntryShape ⟨"a".data, "b".data, "c".data⟩ []
      "\x7bname: \"a\", help: \"b\", type: \"c\"\x7d".data ∧
    load_commands (envOf contentW10) none = (rs1W ++ rs2W).map mkRecord :=
  ⟨C10_match_shape_and_skip.1 _ _ _ (by decide),
   C10_match_shape_and_skip.2 rs1W rs2W gW [] (envOf contentW10) none
     (by decide) (by decide) (by decide) (by decide) rfl rfl⟩
